import Mathlib

/-!
Verification of the EasyPQP `reduce` command (and the pyprophet import
fallback of the `library` command) from `easypqp/main.py`, against the
natural-language specification of the repository.

The relational library store (PQP file) is modelled as seven lists, one
per table, in stored (rowid) order.  Retention times are modelled as
rationals.  `pd.cut(x, bins=n, right=False, labels=False)` is embedded
faithfully: the bin edges are `n+1` equally spaced points over
`[min x, max x]`, with the last edge extended by 0.1% of the range
(both edges padded by 0.1% of the absolute value when `min x = max x`),
and a value is assigned the label `(number of edges ≤ value) - 1`
(numpy `searchsorted` with side `right`).  `groupby('BIN').head(k)`
keeps a row exactly when fewer than `k` earlier rows share its bin.
The SQL cascade is a sequence of list filters, each statement reading
the tables already rewritten by the previous statements, exactly in the
source's statement order.
-/

namespace EasyPQP

attribute [local semireducible] Rat.mul Rat.add Rat.sub Rat.inv

/-- One row of the PRECURSOR table: ID, DECOY flag, LIBRARY_RT. -/
structure Precursor where
  id : Nat
  decoy : Bool
  rt : ℚ
deriving DecidableEq, Repr

/-- The relational library store: PROTEIN, PEPTIDE, PRECURSOR, TRANSITION
and the three mapping tables, each in stored (rowid) order.
`transPrecMapping` rows are `(TRANSITION_ID, PRECURSOR_ID)`,
`precPepMapping` rows are `(PRECURSOR_ID, PEPTIDE_ID)`,
`pepProtMapping` rows are `(PEPTIDE_ID, PROTEIN_ID)`. -/
structure Store where
  protein : List Nat
  peptide : List Nat
  precursor : List Precursor
  transition : List Nat
  transPrecMapping : List (Nat × Nat)
  precPepMapping : List (Nat × Nat)
  pepProtMapping : List (Nat × Nat)
deriving DecidableEq, Repr

/-- `SELECT PRECURSOR.ID, LIBRARY_RT FROM PRECURSOR WHERE PRECURSOR.DECOY == 0`. -/
def anchorCandidates (s : Store) : List Precursor :=
  s.precursor.filter (fun p => !p.decoy)

/-- Minimum of a list of rationals (0 on the empty list, never used there). -/
def listMin : List ℚ → ℚ
  | [] => 0
  | x :: t => t.foldl min x

/-- Maximum of a list of rationals (0 on the empty list, never used there). -/
def listMax : List ℚ → ℚ
  | [] => 0
  | x :: t => t.foldl max x

/-- The LIBRARY_RT column of the anchor candidates. -/
def rtsOf (s : Store) : List ℚ := (anchorCandidates s).map (·.rt)

/-- Lower range padding used by `pd.cut` when all values coincide. -/
def padLo (mn : ℚ) : ℚ := if mn = 0 then mn - 1 / 1000 else mn - |mn| / 1000

/-- Upper range padding used by `pd.cut` when all values coincide. -/
def padHi (mx : ℚ) : ℚ := if mx = 0 then mx + 1 / 1000 else mx + |mx| / 1000

/-- The `i`-th bin edge computed by `pd.cut(x, bins=n, right=False)` for data
ranging over `[mn, mx]`: `linspace(mn, mx, n+1)` with the last edge extended
by 0.1% of the range; when `mn = mx` both ends are padded first instead. -/
def cutEdge (mn mx : ℚ) (n i : Nat) : ℚ :=
  if mn = mx then padLo mn + (padHi mx - padLo mn) * i / n
  else if i = n then mx + (mx - mn) / 1000
  else mn + (mx - mn) * i / n

/-- All `n+1` bin edges. -/
def cutEdges (mn mx : ℚ) (n : Nat) : List ℚ :=
  (List.range (n + 1)).map (cutEdge mn mx n)

/-- The bin label `pd.cut(..., right=False, labels=False)` assigns to `v`:
`searchsorted(edges, v, side='right') - 1`, i.e. the number of edges `≤ v`
minus one. -/
def binOf (mn mx : ℚ) (n : Nat) (v : ℚ) : Nat :=
  ((cutEdges mn mx n).countP (fun e => decide (e ≤ v))) - 1

/-- The bin assigned to a precursor of store `s` when the gradient is split
into `n` bins. -/
def binAssign (s : Store) (n : Nat) (p : Precursor) : Nat :=
  binOf (listMin (rtsOf s)) (listMax (rtsOf s)) n p.rt

/-- Helper for `groupby(key).head(k)`: keep an element exactly when fewer than
`k` previously seen elements share its key. -/
def headPerBinAux {α : Type} (k : Nat) (key : α → Nat) : List α → List α → List α
  | _, [] => []
  | seen, a :: t =>
    if seen.countP (fun b => key b == key a) < k then
      a :: headPerBinAux k key (seen ++ [a]) t
    else
      headPerBinAux k key (seen ++ [a]) t

/-- `df.groupby(key).head(k)`: the first `k` rows of every group, in the
original row order. -/
def headPerBin {α : Type} (k : Nat) (key : α → Nat) (l : List α) : List α :=
  headPerBinAux k key [] l

/-- `anchor_candidates.groupby('BIN').head(peptides)`: the anchor set. -/
def anchors (s : Store) (n k : Nat) : List Precursor :=
  headPerBin k (binAssign s n) (anchorCandidates s)

/-- The `PRECURSOR_ID` column of the `temp_anchors` table. -/
def anchorIds (s : Store) (n k : Nat) : List Nat := (anchors s n k).map (·.id)

/-- The deletion cascade of the `reduce` command, one list filter per SQL
`DELETE` statement, in the source's statement order; each statement reads the
tables already rewritten by the previous ones. -/
def reduceCore (s : Store) (n k : Nat) : Store :=
  let ids : List Nat := anchorIds s n k
  let precursorKept : List Precursor := s.precursor.filter (fun p => decide (p.id ∈ ids))
  let tpmKept : List (Nat × Nat) := s.transPrecMapping.filter (fun m => decide (m.2 ∈ ids))
  let transitionKept : List Nat := s.transition.filter (fun t => decide (t ∈ tpmKept.map (·.1)))
  let ppmKept : List (Nat × Nat) := s.precPepMapping.filter (fun m => decide (m.1 ∈ ids))
  let peptideKept : List Nat := s.peptide.filter (fun q => decide (q ∈ ppmKept.map (·.2)))
  let pepProtKept : List (Nat × Nat) :=
    s.pepProtMapping.filter (fun m => decide (m.1 ∈ ppmKept.map (·.2)))
  let proteinKept : List Nat := s.protein.filter (fun r => decide (r ∈ pepProtKept.map (·.2)))
  ⟨proteinKept, peptideKept, precursorKept, transitionKept, tpmKept, ppmKept, pepProtKept⟩

/-- The store-level outcome of one `reduce` invocation: `pd.cut` raises a
`ValueError` when the requested bin count is below one, or when the candidate
table is empty; otherwise the cascade runs to completion. -/
def reduceStoreE (s : Store) (n k : Nat) : Except String Store :=
  if n = 0 then Except.error "bins should be a positive integer"
  else if anchorCandidates s = [] then Except.error "Cannot cut empty array"
  else Except.ok (reduceCore s n k)

/-- The `ID` column of the PRECURSOR table. -/
def precursorIds (s : Store) : List Nat := s.precursor.map (·.id)

/-- The relational-library schema invariant: every mapping row references an
existing row in both linked tables, and every PROTEIN, PEPTIDE, PRECURSOR and
TRANSITION row is referenced by at least one mapping row. -/
def refIntegrity (s : Store) : Prop :=
  (∀ m ∈ s.transPrecMapping, m.1 ∈ s.transition ∧ m.2 ∈ precursorIds s) ∧
  (∀ m ∈ s.precPepMapping, m.1 ∈ precursorIds s ∧ m.2 ∈ s.peptide) ∧
  (∀ m ∈ s.pepProtMapping, m.1 ∈ s.peptide ∧ m.2 ∈ s.protein) ∧
  (∀ t ∈ s.transition, t ∈ s.transPrecMapping.map (·.1)) ∧
  (∀ p ∈ s.precursor,
    p.id ∈ s.transPrecMapping.map (·.2) ∨ p.id ∈ s.precPepMapping.map (·.1)) ∧
  (∀ q ∈ s.peptide,
    q ∈ s.precPepMapping.map (·.2) ∨ q ∈ s.pepProtMapping.map (·.1)) ∧
  (∀ r ∈ s.protein, r ∈ s.pepProtMapping.map (·.2))

instance (s : Store) : Decidable (refIntegrity s) := by
  unfold refIntegrity; infer_instance

/-- The observable actions of one `reduce` invocation, in source order. -/
inductive Step where
  | copy
  | openConn
  | readCandidates
  | cutStep
  | headStep
  | writeTemp
  | delPrecursor
  | delTransPrecMapping
  | delTransition
  | delPrecPepMapping
  | delPeptide
  | delPepProtMapping
  | delProtein
  | dropTemp
  | commitStep
  | vacuumStep
  | closeConn
deriving DecidableEq, Repr

/-- The full action sequence of a successful `reduce` invocation, in source
order: the deletion cascade, dropping the temp table, `con.commit()`, then
`VACUUM`, then closing the connection. -/
def fullTrace : List Step :=
  [Step.copy, Step.openConn, Step.readCandidates, Step.cutStep, Step.headStep,
   Step.writeTemp, Step.delPrecursor, Step.delTransPrecMapping, Step.delTransition,
   Step.delPrecPepMapping, Step.delPeptide, Step.delPepProtMapping, Step.delProtein,
   Step.dropTemp, Step.commitStep, Step.vacuumStep, Step.closeConn]

/-- The cascade `DELETE` statements of the `reduce` command. -/
def deleteSteps : List Step :=
  [Step.delPrecursor, Step.delTransPrecMapping, Step.delTransition,
   Step.delPrecPepMapping, Step.delPeptide, Step.delPepProtMapping, Step.delProtein]

/-- A file system mapping paths to PQP stores. -/
def FileSys : Type := String → Option Store

/-- One `reduce` invocation at the file level, returning the executed action
sequence, the raised error (if any) and the resulting file system.
`shutil.copyfile` raises `FileNotFoundError` on a missing input and
`SameFileError` when input and output are the same path, both before any
write; all mutation happens through the connection to the output path. -/
def reduceRun (fs : FileSys) (infile outfile : String) (n k : Nat) :
    List Step × Option String × FileSys :=
  match fs infile with
  | none => ([], some "FileNotFoundError", fs)
  | some s =>
    if infile = outfile then ([], some "SameFileError", fs)
    else if n = 0 then
      ([Step.copy, Step.openConn, Step.readCandidates],
        some "bins should be a positive integer",
        fun p => if p = outfile then fs infile else fs p)
    else if anchorCandidates s = [] then
      ([Step.copy, Step.openConn, Step.readCandidates],
        some "Cannot cut empty array",
        fun p => if p = outfile then fs infile else fs p)
    else
      (fullTrace, none,
        fun p => if p = outfile then some (reduceCore s n k) else fs p)

/-- A pi0-lambda option value `(start, end, step)`. -/
def Pi0Lambda : Type := ℚ × ℚ × ℚ

/-- The import fallback of `main.py`: `transform_pi0_lambda` is taken from
`pyprophet.data_handling` when that module is importable, and is `None`
otherwise (`try ... except ModuleNotFoundError`). -/
def importPi0Callback (pyprophetAvailable : Bool)
    (transform : Pi0Lambda → Except String Pi0Lambda) :
    Option (Pi0Lambda → Except String Pi0Lambda) :=
  if pyprophetAvailable then some transform else none

/-- Click's handling of `callback=transform_pi0_lambda` on the `--pi0_lambda`
option of the `library` command: a `None` callback is skipped and the parsed
value is passed through unchanged. -/
def processPi0Option (pyprophetAvailable : Bool)
    (transform : Pi0Lambda → Except String Pi0Lambda)
    (value : Pi0Lambda) : Except String Pi0Lambda :=
  match importPi0Callback pyprophetAvailable transform with
  | some f => f value
  | none => Except.ok value

/-! General list lemmas used by the development. -/

theorem countP_range_eq (p : Nat → Bool) :
    ∀ (m j : Nat), j ≤ m → (∀ i, i < j → p i = true) →
      (∀ i, j ≤ i → i < m → p i = false) →
      (List.range m).countP p = j := by
  intro m
  induction m with
  | zero =>
    intro j hj _ _
    have hj0 : j = 0 := Nat.le_zero.mp hj
    subst hj0
    simp
  | succ m ih =>
    intro j hj h1 h2
    rw [List.range_succ, List.countP_append]
    by_cases hjm : j ≤ m
    · rw [ih j hjm h1 (fun i hi him => h2 i hi (Nat.lt_succ_of_lt him))]
      have hpm : p m = false := h2 m hjm (Nat.lt_succ_self m)
      simp [List.countP_cons, hpm]
    · have hj' : j = m + 1 := by omega
      subst hj'
      rw [ih m (Nat.le_refl m) (fun i hi => h1 i (Nat.lt_succ_of_lt hi))
        (fun i hi him => absurd him (by omega))]
      have hpm : p m = true := h1 m (Nat.lt_succ_self m)
      simp [List.countP_cons, hpm]

theorem foldl_min_le_init : ∀ (l : List ℚ) (a : ℚ), l.foldl min a ≤ a := by
  intro l
  induction l with
  | nil => intro a; simp
  | cons x t ih => intro a; exact le_trans (ih (min a x)) (min_le_left a x)

theorem foldl_min_le_mem : ∀ (l : List ℚ) (a v : ℚ), v ∈ l → l.foldl min a ≤ v := by
  intro l
  induction l with
  | nil => intro a v hv; simp at hv
  | cons x t ih =>
    intro a v hv
    rcases List.mem_cons.mp hv with h | h
    · subst h
      exact le_trans (foldl_min_le_init t (min a v)) (min_le_right a v)
    · exact ih (min a x) v h

theorem listMin_le (l : List ℚ) (v : ℚ) (hv : v ∈ l) : listMin l ≤ v := by
  cases l with
  | nil => simp at hv
  | cons x t =>
    show t.foldl min x ≤ v
    rcases List.mem_cons.mp hv with h | h
    · subst h; exact foldl_min_le_init t v
    · exact foldl_min_le_mem t x v h

theorem init_le_foldl_max : ∀ (l : List ℚ) (a : ℚ), a ≤ l.foldl max a := by
  intro l
  induction l with
  | nil => intro a; simp
  | cons x t ih => intro a; exact le_trans (le_max_left a x) (ih (max a x))

theorem mem_le_foldl_max : ∀ (l : List ℚ) (a v : ℚ), v ∈ l → v ≤ l.foldl max a := by
  intro l
  induction l with
  | nil => intro a v hv; simp at hv
  | cons x t ih =>
    intro a v hv
    rcases List.mem_cons.mp hv with h | h
    · subst h
      exact le_trans (le_max_right a v) (init_le_foldl_max t (max a v))
    · exact ih (max a x) v h

theorem le_listMax (l : List ℚ) (v : ℚ) (hv : v ∈ l) : v ≤ listMax l := by
  cases l with
  | nil => simp at hv
  | cons x t =>
    show v ≤ t.foldl max x
    rcases List.mem_cons.mp hv with h | h
    · subst h; exact init_le_foldl_max t v
    · exact mem_le_foldl_max t x v h

theorem headPerBinAux_sublist {α : Type} (k : Nat) (key : α → Nat) :
    ∀ (t seen : List α), (headPerBinAux k key seen t).Sublist t := by
  intro t
  induction t with
  | nil => intro seen; simp [headPerBinAux]
  | cons a t ih =>
    intro seen
    rw [headPerBinAux]
    by_cases h : seen.countP (fun b => key b == key a) < k
    · rw [if_pos h]; exact List.Sublist.cons₂ a (ih (seen ++ [a]))
    · rw [if_neg h]; exact List.Sublist.cons a (ih (seen ++ [a]))

theorem anchors_sublist (s : Store) (n k : Nat) :
    (anchors s n k).Sublist (anchorCandidates s) :=
  headPerBinAux_sublist k (binAssign s n) (anchorCandidates s) []

theorem headPerBinAux_countP_le {α : Type} (k : Nat) (key : α → Nat) (b : Nat) :
    ∀ (t seen : List α),
      (headPerBinAux k key seen t).countP (fun a => key a == b) ≤
        k - seen.countP (fun a => key a == b) := by
  intro t
  induction t with
  | nil => intro seen; simp [headPerBinAux]
  | cons a t ih =>
    intro seen
    rw [headPerBinAux]
    have hseen : (seen ++ [a]).countP (fun x => key x == b) =
        seen.countP (fun x => key x == b) + (if (key a == b) = true then 1 else 0) := by
      rw [List.countP_append]; simp [List.countP_cons]
    have h2 := ih (seen ++ [a])
    rw [hseen] at h2
    by_cases hb : (key a == b) = true
    · have hkey : key a = b := by simpa using hb
      have hfun : (fun x => key x == key a) = (fun x => key x == b) := by rw [hkey]
      rw [hfun]
      rw [if_pos hb] at h2
      by_cases hk : seen.countP (fun x => key x == b) < k
      · rw [if_pos hk, List.countP_cons, if_pos hb]
        omega
      · rw [if_neg hk]
        omega
    · rw [if_neg hb] at h2
      by_cases hk : seen.countP (fun x => key x == key a) < k
      · rw [if_pos hk, List.countP_cons, if_neg hb]
        omega
      · rw [if_neg hk]
        omega

theorem anchors_countP_le (s : Store) (n k b : Nat) :
    (anchors s n k).countP (fun a => binAssign s n a == b) ≤ k := by
  have h := headPerBinAux_countP_le k (binAssign s n) b (anchorCandidates s) []
  simpa using h

theorem headPerBinAux_filter_take {α : Type} (k : Nat) (key : α → Nat) (b : Nat) :
    ∀ (t seen : List α),
      (headPerBinAux k key seen t).filter (fun a => key a == b) =
        (t.filter (fun a => key a == b)).take
          (k - seen.countP (fun a => key a == b)) := by
  intro t
  induction t with
  | nil => intro seen; simp [headPerBinAux]
  | cons a t ih =>
    intro seen
    rw [headPerBinAux]
    have hseen : (seen ++ [a]).countP (fun x => key x == b) =
        seen.countP (fun x => key x == b) + (if (key a == b) = true then 1 else 0) := by
      rw [List.countP_append]; simp [List.countP_cons]
    by_cases hb : (key a == b) = true
    · have hkey : key a = b := by simpa using hb
      have hfun : (fun x => key x == key a) = (fun x => key x == b) := by rw [hkey]
      rw [hfun]
      rw [if_pos hb] at hseen
      by_cases hk : seen.countP (fun x => key x == b) < k
      · rw [if_pos hk, List.filter_cons, if_pos hb, ih (seen ++ [a]), hseen,
          List.filter_cons, if_pos hb]
        have hsucc : k - seen.countP (fun x => key x == b) =
            (k - (seen.countP (fun x => key x == b) + 1)) + 1 := by omega
        rw [hsucc, List.take_succ_cons]
      · rw [if_neg hk, ih (seen ++ [a]), hseen, List.filter_cons, if_pos hb]
        have h0 : k - (seen.countP (fun x => key x == b) + 1) = 0 := by omega
        have h0' : k - seen.countP (fun x => key x == b) = 0 := by omega
        rw [h0, h0']
        simp
    · rw [if_neg hb] at hseen
      have hfilter : List.filter (fun x => key x == b) (a :: t) =
          List.filter (fun x => key x == b) t := by
        rw [List.filter_cons, if_neg hb]
      by_cases hk : seen.countP (fun x => key x == key a) < k
      · rw [if_pos hk, List.filter_cons, if_neg hb, ih (seen ++ [a]), hseen, hfilter]
        simp
      · rw [if_neg hk, ih (seen ++ [a]), hseen, hfilter]
        simp

theorem headPerBinAux_eq_self {α : Type} (k : Nat) (key : α → Nat) :
    ∀ (t seen : List α),
      (∀ b, seen.countP (fun a => key a == b) + t.countP (fun a => key a == b) ≤ k) →
      headPerBinAux k key seen t = t := by
  intro t
  induction t with
  | nil => intro seen _; simp [headPerBinAux]
  | cons a t ih =>
    intro seen h
    rw [headPerBinAux]
    have hguard : seen.countP (fun x => key x == key a) < k := by
      have hh := h (key a)
      rw [List.countP_cons] at hh
      simp only [beq_self_eq_true, if_pos] at hh
      omega
    rw [if_pos hguard]
    congr 1
    apply ih
    intro b
    have hh := h b
    rw [List.countP_cons] at hh
    rw [List.countP_append]
    by_cases hb : (key a == b) = true
    · simp only [List.countP_cons, List.countP_nil, hb, if_pos] at hh ⊢
      omega
    · simp only [List.countP_cons, List.countP_nil, hb] at hh ⊢
      omega

theorem filter_eq_of_sublist {α : Type} (p : α → Bool) {sub l : List α}
    (hsub : sub.Sublist l) :
    l.Nodup → (∀ a ∈ sub, p a = true) → (∀ a ∈ l, p a = true → a ∈ sub) →
    l.filter p = sub := by
  induction hsub with
  | slnil => intro _ _ _; simp
  | cons a hs ih =>
    intro hnd h1 h2
    have hnd' := List.nodup_cons.mp hnd
    have hpa : p a = false := by
      cases hpa : p a with
      | false => rfl
      | true => exact absurd (hs.subset (h2 a (List.mem_cons_self a _) hpa)) hnd'.1
    rw [List.filter_cons, if_neg (by simp [hpa])]
    exact ih hnd'.2 h1 (fun x hx hpx => h2 x (List.mem_cons_of_mem a hx) hpx)
  | cons₂ a hs ih =>
    intro hnd h1 h2
    have hnd' := List.nodup_cons.mp hnd
    have hpa : p a = true := h1 a (List.mem_cons_self a _)
    rw [List.filter_cons, if_pos (by simp [hpa])]
    congr 1
    apply ih hnd'.2 (fun x hx => h1 x (List.mem_cons_of_mem a hx))
    intro x hx hpx
    rcases List.mem_cons.mp (h2 x (List.mem_cons_of_mem a hx) hpx) with h | h
    · subst h; exact absurd hx hnd'.1
    · exact h

theorem nodup_length_le_of_subset (l₁ l₂ : List Nat) (hnd : l₁.Nodup)
    (hsub : ∀ x ∈ l₁, x ∈ l₂) : l₁.length ≤ l₂.length := by
  have h1 : l₁.toFinset.card = l₁.length := List.toFinset_card_of_nodup hnd
  have h2 : l₁.toFinset ⊆ l₂.toFinset := by
    intro x hx
    rw [List.mem_toFinset] at hx ⊢
    exact hsub x hx
  calc l₁.length = l₁.toFinset.card := h1.symm
    _ ≤ l₂.toFinset.card := Finset.card_le_card h2
    _ ≤ l₂.length := List.toFinset_card_le l₂

theorem length_eq_sum_countP {α : Type} (key : α → Nat) (n : Nat) :
    ∀ (l : List α), (∀ a ∈ l, key a < n) →
      l.length = ∑ b ∈ Finset.range n, l.countP (fun a => key a == b) := by
  intro l
  induction l with
  | nil => intro _; simp
  | cons a t ih =>
    intro h
    have ht := ih (fun x hx => h x (List.mem_cons_of_mem a hx))
    simp only [List.length_cons, List.countP_cons]
    rw [Finset.sum_add_distrib, ← ht]
    have hone : (∑ b ∈ Finset.range n, if (key a == b) = true then 1 else 0) = 1 := by
      have hconv : ∀ b : Nat, (if (key a == b) = true then (1 : ℕ) else 0) =
          (if b = key a then 1 else 0) := by
        intro b
        by_cases hb : b = key a
        · subst hb; simp
        · have : (key a == b) = false := by
            simp [Ne.symm hb]
          simp [this, hb]
      simp_rw [hconv]
      rw [Finset.sum_ite_eq' (Finset.range n) (key a) (fun _ => 1)]
      simp [Finset.mem_range.mpr (h a (List.mem_cons_self a t))]
    omega

theorem length_le_of_key_bound {α : Type} (key : α → Nat) (n k : Nat) (l : List α)
    (hkey : ∀ a ∈ l, key a < n)
    (hcnt : ∀ b, l.countP (fun a => key a == b) ≤ k) :
    l.length ≤ n * k := by
  rw [length_eq_sum_countP key n l hkey]
  calc (∑ b ∈ Finset.range n, l.countP (fun a => key a == b))
      ≤ (Finset.range n).card • k := Finset.sum_le_card_nsmul _ _ k (fun b _ => hcnt b)
    _ = n * k := by simp [Finset.card_range, smul_eq_mul]

/-! Arithmetic characterization of the `pd.cut` bin assignment. -/

theorem cutEdge_zero (mn mx : ℚ) (n : Nat) (hn : n ≠ 0) (hlt : mn < mx) :
    cutEdge mn mx n 0 = mn := by
  unfold cutEdge
  rw [if_neg hlt.ne, if_neg (by omega : (0 : Nat) ≠ n)]
  simp

theorem cutEdge_last_gt (mn mx : ℚ) (n : Nat) (hlt : mn < mx) :
    mx < cutEdge mn mx n n := by
  unfold cutEdge
  rw [if_neg hlt.ne, if_pos rfl]
  have h : (0 : ℚ) < (mx - mn) / 1000 := by
    apply div_pos (by linarith) (by norm_num)
  linarith

theorem cutEdge_mono (mn mx : ℚ) (n : Nat) (hn : n ≠ 0) (hlt : mn < mx)
    {i j : Nat} (hij : i ≤ j) (hj : j ≤ n) :
    cutEdge mn mx n i ≤ cutEdge mn mx n j := by
  have hn' : (0 : ℚ) < n := by
    exact_mod_cast Nat.pos_of_ne_zero hn
  have hd : (0 : ℚ) < mx - mn := by linarith
  unfold cutEdge
  rw [if_neg hlt.ne, if_neg hlt.ne]
  by_cases hjn : j = n
  · rw [if_pos hjn]
    by_cases hin : i = n
    · rw [if_pos hin]
    · rw [if_neg hin]
      have hi : (i : ℚ) ≤ (n : ℚ) := by exact_mod_cast le_trans hij hj
      have h1 : (mx - mn) * i / n ≤ mx - mn := by
        rw [div_le_iff hn']
        nlinarith
      have h2 : (0 : ℚ) ≤ (mx - mn) / 1000 := by positivity
      linarith
  · rw [if_neg hjn, if_neg (by omega : i ≠ n)]
    have hij' : (i : ℚ) ≤ (j : ℚ) := by exact_mod_cast hij
    have h1 : (mx - mn) * i / n ≤ (mx - mn) * j / n := by
      rw [div_le_div_right hn']
      nlinarith
    linarith

theorem binOf_spec (mn mx v : ℚ) (n : Nat) (hn : n ≠ 0) (hlt : mn < mx)
    (hv1 : mn ≤ v) (hv2 : v ≤ mx) :
    binOf mn mx n v < n ∧
    cutEdge mn mx n (binOf mn mx n v) ≤ v ∧
    v < cutEdge mn mx n (binOf mn mx n v + 1) := by
  have hP0 : cutEdge mn mx n 0 ≤ v := by
    rw [cutEdge_zero mn mx n hn hlt]; exact hv1
  have hPn : ¬ cutEdge mn mx n n ≤ v :=
    not_le.mpr (lt_of_le_of_lt hv2 (cutEdge_last_gt mn mx n hlt))
  have hjle : Nat.findGreatest (fun i => cutEdge mn mx n i ≤ v) n ≤ n :=
    Nat.findGreatest_le n
  have hPj : cutEdge mn mx n (Nat.findGreatest (fun i => cutEdge mn mx n i ≤ v) n) ≤ v :=
    Nat.findGreatest_spec (P := fun i => cutEdge mn mx n i ≤ v) (Nat.zero_le n) hP0
  have hjn : Nat.findGreatest (fun i => cutEdge mn mx n i ≤ v) n ≠ n := by
    intro h
    rw [h] at hPj
    exact hPn hPj
  have hjlt : Nat.findGreatest (fun i => cutEdge mn mx n i ≤ v) n < n :=
    lt_of_le_of_ne hjle hjn
  have hnotsucc : ¬ cutEdge mn mx n (Nat.findGreatest (fun i => cutEdge mn mx n i ≤ v) n + 1) ≤ v :=
    Nat.findGreatest_is_greatest (P := fun i => cutEdge mn mx n i ≤ v)
      (Nat.lt_succ_self _) (by omega)
  have hcount : (cutEdges mn mx n).countP (fun e => decide (e ≤ v)) =
      Nat.findGreatest (fun i => cutEdge mn mx n i ≤ v) n + 1 := by
    unfold cutEdges
    rw [List.countP_map]
    have hcomp : ((fun e => decide (e ≤ v)) ∘ (cutEdge mn mx n)) =
        fun i => decide (cutEdge mn mx n i ≤ v) := rfl
    rw [hcomp]
    apply countP_range_eq _ (n + 1) _ (by omega)
    · intro i hi
      have hmono : cutEdge mn mx n i ≤
          cutEdge mn mx n (Nat.findGreatest (fun i => cutEdge mn mx n i ≤ v) n) :=
        cutEdge_mono mn mx n hn hlt (by omega) hjle
      exact decide_eq_true (le_trans hmono hPj)
    · intro i hi him
      exact decide_eq_false
        (Nat.findGreatest_is_greatest (P := fun i => cutEdge mn mx n i ≤ v)
          (n := n) (by omega) (by omega))
  have hbin : binOf mn mx n v = Nat.findGreatest (fun i => cutEdge mn mx n i ≤ v) n := by
    unfold binOf
    rw [hcount]
    omega
  rw [hbin]
  exact ⟨hjlt, hPj, not_le.mp hnotsucc⟩

/-- Modelled from the spec: the left edge of bin `i` in the equal-width
partition of the RT range `[mn, mx]` into `n` bins. -/
def specLo (mn mx : ℚ) (n i : Nat) : ℚ := mn + (mx - mn) * i / n

/-- Modelled from the spec: the right edge of bin `i` in the equal-width
partition of the RT range `[mn, mx]` into `n` bins. -/
def specHi (mn mx : ℚ) (n i : Nat) : ℚ := mn + (mx - mn) * (i + 1) / n

/-- Modelled from the spec: `v` lies within bin `i`'s range, the bins being
left-closed half-open `[lo, hi)` with the final bin closed on both ends so as
to include the maximum. -/
def inSpecBinRange (mn mx : ℚ) (n i : Nat) (v : ℚ) : Prop :=
  specLo mn mx n i ≤ v ∧ (v < specHi mn mx n i ∨ (i = n - 1 ∧ v ≤ mx))

instance (mn mx : ℚ) (n i : Nat) (v : ℚ) : Decidable (inSpecBinRange mn mx n i v) := by
  unfold inSpecBinRange specLo specHi
  infer_instance

theorem cutEdge_eq_specLo (mn mx : ℚ) (n i : Nat) (hne : mn ≠ mx) (hin : i ≠ n) :
    cutEdge mn mx n i = specLo mn mx n i := by
  unfold cutEdge specLo
  rw [if_neg hne, if_neg hin]

theorem cutEdge_succ_eq_specHi (mn mx : ℚ) (n i : Nat) (hne : mn ≠ mx)
    (hin : i + 1 ≠ n) :
    cutEdge mn mx n (i + 1) = specHi mn mx n i := by
  unfold cutEdge specHi
  rw [if_neg hne, if_neg hin]
  push_cast
  ring

theorem binAssign_mem_spec_range (s : Store) (n : Nat) (hn : n ≠ 0)
    (hlt : listMin (rtsOf s) < listMax (rtsOf s)) (p : Precursor)
    (hp : p ∈ anchorCandidates s) :
    binAssign s n p < n ∧
    inSpecBinRange (listMin (rtsOf s)) (listMax (rtsOf s)) n (binAssign s n p) p.rt := by
  have hmem : p.rt ∈ rtsOf s := List.mem_map_of_mem _ hp
  have hv1 := listMin_le (rtsOf s) p.rt hmem
  have hv2 := le_listMax (rtsOf s) p.rt hmem
  have hb : binAssign s n p = binOf (listMin (rtsOf s)) (listMax (rtsOf s)) n p.rt := rfl
  obtain ⟨hblt, hle, hgt⟩ := binOf_spec _ _ p.rt n hn hlt hv1 hv2
  rw [hb]
  refine ⟨hblt, ?_, ?_⟩
  · rw [← cutEdge_eq_specLo _ _ n _ hlt.ne (by omega)]
    exact hle
  · by_cases hsucc : binOf (listMin (rtsOf s)) (listMax (rtsOf s)) n p.rt + 1 = n
    · right
      exact ⟨by omega, hv2⟩
    · left
      rw [← cutEdge_succ_eq_specHi _ _ n _ hlt.ne hsucc]
      exact hgt

/-! Structural facts about the deletion cascade. -/

theorem mem_filter_decide {α : Type} {l : List α} {q : α → Prop} [DecidablePred q] {x : α} :
    x ∈ l.filter (fun a => decide (q a)) ↔ x ∈ l ∧ q x := by
  rw [List.mem_filter]
  simp

theorem reduceCore_protein (s : Store) (n k : Nat) :
    (reduceCore s n k).protein =
      s.protein.filter
        (fun r => decide (r ∈ (reduceCore s n k).pepProtMapping.map (·.2))) := rfl

theorem reduceCore_peptide (s : Store) (n k : Nat) :
    (reduceCore s n k).peptide =
      s.peptide.filter
        (fun q => decide (q ∈ (reduceCore s n k).precPepMapping.map (·.2))) := rfl

theorem reduceCore_precursor (s : Store) (n k : Nat) :
    (reduceCore s n k).precursor =
      s.precursor.filter (fun p => decide (p.id ∈ anchorIds s n k)) := rfl

theorem reduceCore_transition (s : Store) (n k : Nat) :
    (reduceCore s n k).transition =
      s.transition.filter
        (fun t => decide (t ∈ (reduceCore s n k).transPrecMapping.map (·.1))) := rfl

theorem reduceCore_transPrecMapping (s : Store) (n k : Nat) :
    (reduceCore s n k).transPrecMapping =
      s.transPrecMapping.filter (fun m => decide (m.2 ∈ anchorIds s n k)) := rfl

theorem reduceCore_precPepMapping (s : Store) (n k : Nat) :
    (reduceCore s n k).precPepMapping =
      s.precPepMapping.filter (fun m => decide (m.1 ∈ anchorIds s n k)) := rfl

theorem reduceCore_pepProtMapping (s : Store) (n k : Nat) :
    (reduceCore s n k).pepProtMapping =
      s.pepProtMapping.filter
        (fun m => decide (m.1 ∈ (reduceCore s n k).precPepMapping.map (·.2))) := rfl

theorem reduceStoreE_ok (s : Store) (n k : Nat) (s' : Store)
    (h : reduceStoreE s n k = Except.ok s') :
    n ≠ 0 ∧ anchorCandidates s ≠ [] ∧ s' = reduceCore s n k := by
  unfold reduceStoreE at h
  by_cases hn : n = 0
  · rw [if_pos hn] at h
    exact absurd h (by simp)
  · rw [if_neg hn] at h
    by_cases hne : anchorCandidates s = []
    · rw [if_pos hne] at h
      exact absurd h (by simp)
    · rw [if_neg hne] at h
      exact ⟨hn, hne, by injection h with h; exact h.symm⟩

/-- Every precursor row whose ID is in the anchor list is itself an anchor,
given that precursor IDs are unique. -/
theorem mem_anchors_of_id_mem (s : Store) (n k : Nat)
    (hnd : (s.precursor.map (·.id)).Nodup) (p : Precursor)
    (hp : p ∈ s.precursor) (hid : p.id ∈ anchorIds s n k) :
    p ∈ anchors s n k := by
  obtain ⟨a, ha, haid⟩ := List.mem_map.mp hid
  have hacand : a ∈ anchorCandidates s := (anchors_sublist s n k).subset ha
  have haprec : a ∈ s.precursor := (List.filter_sublist _).subset hacand
  have hap : a = p := List.inj_on_of_nodup_map hnd haprec hp haid
  exact hap ▸ ha

theorem anchors_not_decoy (s : Store) (n k : Nat) (a : Precursor)
    (ha : a ∈ anchors s n k) : a.decoy = false := by
  have hacand : a ∈ anchorCandidates s := (anchors_sublist s n k).subset ha
  have := List.of_mem_filter hacand
  simpa using this

/-- C1 witness/counterexample stores: a small consistent library. -/
def storeW : Store :=
  ⟨[100], [200], [⟨1, false, 0⟩, ⟨2, false, 30⟩], [300, 301],
   [(300, 1), (301, 2)], [(1, 200), (2, 200)], [(200, 100)]⟩

/-- C1: after a completed `reduce`, the relational-library schema invariant is
preserved: every mapping row references an existing row in both linked tables,
and every retained PROTEIN, PEPTIDE, PRECURSOR and TRANSITION row is
referenced by at least one mapping row. -/
theorem reduce_preserves_integrity (s : Store) (n k : Nat) (s' : Store)
    (h : reduceStoreE s n k = Except.ok s') (hint : refIntegrity s) :
    refIntegrity s' := by
  obtain ⟨hn, hne, hs'⟩ := reduceStoreE_ok s n k s' h
  subst hs'
  obtain ⟨h1, h2, h3, h4, h5, h6, h7⟩ := hint
  refine ⟨?_, ?_, ?_, ?_, ?_, ?_, ?_⟩
  · -- transition-precursor mapping rows reference kept transitions and precursors
    intro m hm
    rw [reduceCore_transPrecMapping, mem_filter_decide] at hm
    obtain ⟨hm, hmid⟩ := hm
    constructor
    · rw [reduceCore_transition, mem_filter_decide]
      refine ⟨(h1 m hm).1, ?_⟩
      rw [reduceCore_transPrecMapping]
      exact List.mem_map_of_mem _ (mem_filter_decide.mpr ⟨hm, hmid⟩)
    · obtain ⟨p, hp, hpid⟩ := List.mem_map.mp ((h1 m hm).2)
      show m.2 ∈ (reduceCore s n k).precursor.map (·.id)
      rw [reduceCore_precursor]
      exact hpid ▸ List.mem_map_of_mem _ (mem_filter_decide.mpr ⟨hp, hpid.symm ▸ hmid⟩)
  · -- precursor-peptide mapping rows reference kept precursors and peptides
    intro m hm
    rw [reduceCore_precPepMapping, mem_filter_decide] at hm
    obtain ⟨hm, hmid⟩ := hm
    constructor
    · obtain ⟨p, hp, hpid⟩ := List.mem_map.mp ((h2 m hm).1)
      show m.1 ∈ (reduceCore s n k).precursor.map (·.id)
      rw [reduceCore_precursor]
      exact hpid ▸ List.mem_map_of_mem _ (mem_filter_decide.mpr ⟨hp, hpid.symm ▸ hmid⟩)
    · rw [reduceCore_peptide, mem_filter_decide]
      refine ⟨(h2 m hm).2, ?_⟩
      rw [reduceCore_precPepMapping]
      exact List.mem_map_of_mem _ (mem_filter_decide.mpr ⟨hm, hmid⟩)
  · -- peptide-protein mapping rows reference kept peptides and proteins
    intro m hm
    rw [reduceCore_pepProtMapping, mem_filter_decide] at hm
    obtain ⟨hm, hmid⟩ := hm
    constructor
    · rw [reduceCore_peptide, mem_filter_decide]
      exact ⟨(h3 m hm).1, hmid⟩
    · rw [reduceCore_protein, mem_filter_decide]
      refine ⟨(h3 m hm).2, ?_⟩
      rw [reduceCore_pepProtMapping]
      exact List.mem_map_of_mem _ (mem_filter_decide.mpr ⟨hm, hmid⟩)
  · -- every kept transition is referenced
    intro t ht
    rw [reduceCore_transition, mem_filter_decide] at ht
    exact ht.2
  · -- every kept precursor is referenced
    intro p hp
    rw [reduceCore_precursor, mem_filter_decide] at hp
    obtain ⟨hp, hpid⟩ := hp
    rcases h5 p hp with hcase | hcase
    · left
      obtain ⟨m, hm, hmid⟩ := List.mem_map.mp hcase
      rw [reduceCore_transPrecMapping]
      exact hmid ▸ List.mem_map_of_mem _ (mem_filter_decide.mpr ⟨hm, hmid.symm ▸ hpid⟩)
    · right
      obtain ⟨m, hm, hmid⟩ := List.mem_map.mp hcase
      rw [reduceCore_precPepMapping]
      exact hmid ▸ List.mem_map_of_mem _ (mem_filter_decide.mpr ⟨hm, hmid.symm ▸ hpid⟩)
  · -- every kept peptide is referenced
    intro q hq
    rw [reduceCore_peptide, mem_filter_decide] at hq
    exact Or.inl hq.2
  · -- every kept protein is referenced
    intro r hr
    rw [reduceCore_protein, mem_filter_decide] at hr
    exact hr.2

/-- C1 witness: the integrity theorem applied to a concrete consistent store. -/
theorem reduce_preserves_integrity_witness :
    reduceStoreE storeW 3 1 = Except.ok (reduceCore storeW 3 1) ∧
    refIntegrity storeW ∧ refIntegrity (reduceCore storeW 3 1) := by
  refine ⟨?_, by decide, ?_⟩
  · unfold reduceStoreE
    rw [if_neg (by decide), if_neg (by decide)]
  · exact reduce_preserves_integrity storeW 3 1 (reduceCore storeW 3 1)
      (by unfold reduceStoreE; rw [if_neg (by decide), if_neg (by decide)]) (by decide)

/-- Witness store with one decoy precursor. -/
def storeD : Store :=
  ⟨[100], [200], [⟨1, false, 0⟩, ⟨2, false, 30⟩, ⟨3, true, 15⟩], [300, 301],
   [(300, 1), (301, 2)], [(1, 200), (2, 200)], [(200, 100)]⟩

/-- C9: after a completed `reduce` on a store with unique precursor IDs, the
anchor candidates are drawn only from non-decoy rows, the output contains no
decoy precursors, and every precursor whose ID was not selected as an anchor
is deleted. -/
theorem reduce_removes_decoys (s : Store) (n k : Nat) (s' : Store)
    (h : reduceStoreE s n k = Except.ok s')
    (hnd : (s.precursor.map (·.id)).Nodup) :
    (∀ a ∈ anchors s n k, a.decoy = false) ∧
    (∀ p ∈ s'.precursor, p.decoy = false) ∧
    (∀ p ∈ s.precursor, p.id ∉ anchorIds s n k → p ∉ s'.precursor) := by
  obtain ⟨hn, hne, hs'⟩ := reduceStoreE_ok s n k s' h
  subst hs'
  refine ⟨fun a ha => anchors_not_decoy s n k a ha, ?_, ?_⟩
  · intro p hp
    rw [reduceCore_precursor, mem_filter_decide] at hp
    exact anchors_not_decoy s n k p (mem_anchors_of_id_mem s n k hnd p hp.1 hp.2)
  · intro p _ hid hmem
    rw [reduceCore_precursor, mem_filter_decide] at hmem
    exact hid hmem.2

/-- C9 witness: on a concrete store with one decoy row, the reduced store has
no decoy precursors. -/
theorem reduce_removes_decoys_witness :
    (storeD.precursor.map (·.id)).Nodup ∧
    ∀ p ∈ (reduceCore storeD 3 1).precursor, p.decoy = false := by
  refine ⟨by decide, ?_⟩
  exact (reduce_removes_decoys storeD 3 1 (reduceCore storeD 3 1)
    (by unfold reduceStoreE; rw [if_neg (by decide), if_neg (by decide)])
    (by decide)).2.1

/-- Witness store with four precursors over a non-degenerate gradient,
stored out of RT order in the first bin. -/
def storeS : Store :=
  ⟨[], [], [⟨1, false, 5⟩, ⟨2, false, 0⟩, ⟨3, false, 10⟩, ⟨4, false, 30⟩],
   [], [], [], []⟩

/-- C7: within each RT bin, the anchor set kept by `reduce` is exactly the
first `min(k, bin size)` candidates in stored order — `take k` of the bin's
candidate rows, no reshuffling. -/
theorem anchors_first_k_per_bin (s : Store) (n k : Nat) (hn : n ≠ 0)
    (hne : anchorCandidates s ≠ []) (b : Nat) :
    (anchors s n k).filter (fun a => binAssign s n a == b) =
      ((anchorCandidates s).filter (fun a => binAssign s n a == b)).take k := by
  have h := headPerBinAux_filter_take k (binAssign s n) b (anchorCandidates s) []
  simpa using h

/-- C7 witness: on a concrete store, bin 0's anchors are the first candidate
of bin 0 in stored order. -/
theorem anchors_first_k_per_bin_witness :
    (3 ≠ 0 ∧ anchorCandidates storeS ≠ []) ∧
    (anchors storeS 3 1).filter (fun a => binAssign storeS 3 a == 0) =
      ((anchorCandidates storeS).filter (fun a => binAssign storeS 3 a == 0)).take 1 :=
  ⟨⟨by decide, by decide⟩,
    anchors_first_k_per_bin storeS 3 1 (by decide) (by decide) 0⟩

/-- C8: a bin containing no candidate RT is not an error: the reduction still
completes successfully, and the empty bin contributes zero anchors. -/
theorem empty_bin_not_error (s : Store) (n k b : Nat) (hn : n ≠ 0)
    (hne : anchorCandidates s ≠ [])
    (hb : ∀ p ∈ anchorCandidates s, binAssign s n p ≠ b) :
    reduceStoreE s n k = Except.ok (reduceCore s n k) ∧
    (anchors s n k).countP (fun a => binAssign s n a == b) = 0 := by
  constructor
  · unfold reduceStoreE
    rw [if_neg hn, if_neg hne]
  · rw [List.countP_eq_zero]
    intro a ha
    have hac : a ∈ anchorCandidates s := (anchors_sublist s n k).subset ha
    simpa using hb a hac

/-- C8 witness: on a concrete store whose middle bin of three is empty, the
reduction completes and that bin has no anchors. -/
theorem empty_bin_not_error_witness :
    reduceStoreE storeW 3 1 = Except.ok (reduceCore storeW 3 1) ∧
    (anchors storeW 3 1).countP (fun a => binAssign storeW 3 a == 1) = 0 :=
  empty_bin_not_error storeW 3 1 1 (by decide) (by decide) (by decide)

theorem countP_lt_length_of_mem_false {α : Type} (p : α → Bool) :
    ∀ (l : List α) (x : α), x ∈ l → p x = false → l.countP p < l.length := by
  intro l
  induction l with
  | nil => intro x hx _; simp at hx
  | cons a t ih =>
    intro x hx hpx
    rw [List.countP_cons, List.length_cons]
    rcases List.mem_cons.mp hx with h | h
    · subst h
      rw [hpx]
      have hle := List.countP_le_length p (l := t)
      simp only [Bool.false_eq_true, if_false]
      omega
    · have hlt := ih x h hpx
      by_cases hpa : p a = true
      · rw [hpa]
        simp only [if_true]
        omega
      · rw [Bool.not_eq_true] at hpa
        rw [hpa]
        simp only [Bool.false_eq_true, if_false]
        omega

/-- The last bin edge lies strictly above the data maximum, also when the
range is degenerate (`pd.cut` then pads both ends by a strictly positive
amount). -/
theorem cutEdge_last_gt_of_le (mn mx : ℚ) (n : Nat) (hn : n ≠ 0) (hle : mn ≤ mx) :
    mx < cutEdge mn mx n n := by
  by_cases heq : mn = mx
  · unfold cutEdge
    rw [if_pos heq]
    have hn' : ((n : ℚ)) ≠ 0 := by exact_mod_cast hn
    have hcalc : padLo mn + (padHi mx - padLo mn) * (n : ℚ) / (n : ℚ) = padHi mx := by
      field_simp
    rw [hcalc]
    unfold padHi
    by_cases h0 : mx = 0
    · rw [if_pos h0, h0]
      norm_num
    · rw [if_neg h0]
      have habs : 0 < |mx| := abs_pos.mpr h0
      have hdiv : 0 < |mx| / 1000 := by positivity
      linarith
  · exact cutEdge_last_gt mn mx n (lt_of_le_of_ne hle heq)

/-- Every anchor candidate is assigned one of the `n` requested bins, also
when all candidate RT values coincide. -/
theorem binAssign_lt (s : Store) (n : Nat) (hn : n ≠ 0) (p : Precursor)
    (hp : p ∈ anchorCandidates s) : binAssign s n p < n := by
  have hmem : p.rt ∈ rtsOf s := List.mem_map_of_mem _ hp
  have hv1 := listMin_le (rtsOf s) p.rt hmem
  have hv2 := le_listMax (rtsOf s) p.rt hmem
  have hle : listMin (rtsOf s) ≤ listMax (rtsOf s) := le_trans hv1 hv2
  have hlast : ¬ (cutEdge (listMin (rtsOf s)) (listMax (rtsOf s)) n n ≤ p.rt) :=
    not_le.mpr (lt_of_le_of_lt hv2 (cutEdge_last_gt_of_le _ _ n hn hle))
  have hmeme : cutEdge (listMin (rtsOf s)) (listMax (rtsOf s)) n n ∈
      cutEdges (listMin (rtsOf s)) (listMax (rtsOf s)) n := by
    unfold cutEdges
    exact List.mem_map_of_mem _ (List.mem_range.mpr (Nat.lt_succ_self n))
  have hlen : (cutEdges (listMin (rtsOf s)) (listMax (rtsOf s)) n).length = n + 1 := by
    unfold cutEdges
    rw [List.length_map, List.length_range]
  have hcount : (cutEdges (listMin (rtsOf s)) (listMax (rtsOf s)) n).countP
      (fun e => decide (e ≤ p.rt)) < n + 1 := by
    rw [← hlen]
    exact countP_lt_length_of_mem_false _ _ _ hmeme (decide_eq_false hlast)
  unfold binAssign binOf
  omega

/-- C2 (amended): for a completed reduction with unique precursor IDs, at
most `n * k` precursors remain; and provided the candidates span at least two
distinct RT values, every kept precursor's LIBRARY_RT lies within its
assigned bin's range in the equal-width left-closed partition of the RT range
(final bin closed). -/
theorem reduce_bin_partition (s : Store) (n k : Nat) (hn : n ≠ 0)
    (hne : anchorCandidates s ≠ [])
    (hnd : (s.precursor.map (·.id)).Nodup) :
    (reduceCore s n k).precursor.length ≤ n * k ∧
    (listMin (rtsOf s) < listMax (rtsOf s) →
      ∀ p ∈ (reduceCore s n k).precursor,
        inSpecBinRange (listMin (rtsOf s)) (listMax (rtsOf s)) n (binAssign s n p) p.rt) := by
  constructor
  · have hanchlen : (anchors s n k).length ≤ n * k := by
      apply length_le_of_key_bound (binAssign s n) n k
      · intro a ha
        exact binAssign_lt s n hn a ((anchors_sublist s n k).subset ha)
      · intro b
        exact anchors_countP_le s n k b
    rw [reduceCore_precursor]
    have hmapnd : ((s.precursor.filter
        (fun p => decide (p.id ∈ anchorIds s n k))).map (·.id)).Nodup :=
      List.Sublist.nodup (List.Sublist.map _ (List.filter_sublist _)) hnd
    have hsub : ∀ x ∈ (s.precursor.filter
        (fun p => decide (p.id ∈ anchorIds s n k))).map (·.id),
        x ∈ anchorIds s n k := by
      intro x hx
      obtain ⟨p, hp, hpx⟩ := List.mem_map.mp hx
      exact hpx ▸ (mem_filter_decide.mp hp).2
    calc (s.precursor.filter (fun p => decide (p.id ∈ anchorIds s n k))).length
        = ((s.precursor.filter
            (fun p => decide (p.id ∈ anchorIds s n k))).map (·.id)).length :=
          (List.length_map _ _).symm
      _ ≤ (anchorIds s n k).length := nodup_length_le_of_subset _ _ hmapnd hsub
      _ = (anchors s n k).length := List.length_map _ _
      _ ≤ n * k := hanchlen
  · intro hlt p hp
    rw [reduceCore_precursor, mem_filter_decide] at hp
    have hpa : p ∈ anchors s n k := mem_anchors_of_id_mem s n k hnd p hp.1 hp.2
    have hpc : p ∈ anchorCandidates s := (anchors_sublist s n k).subset hpa
    exact (binAssign_mem_spec_range s n hn hlt p hpc).2

/-- Store whose candidates all share one RT value: pandas pads the degenerate
range by 0.1% on each side before binning. -/
def storeDeg : Store := ⟨[], [], [⟨1, false, 5⟩], [], [], [], []⟩

/-- C2 witness: the amended partition theorem applied to a concrete store,
with the non-degenerate-range proviso discharged for the range property, and
the unconditional count bound also exercised on a degenerate-range store. -/
theorem reduce_bin_partition_witness :
    ((reduceCore storeS 3 1).precursor.length ≤ 3 * 1 ∧
      (listMin (rtsOf storeS) < listMax (rtsOf storeS) →
        ∀ p ∈ (reduceCore storeS 3 1).precursor,
          inSpecBinRange (listMin (rtsOf storeS)) (listMax (rtsOf storeS)) 3
            (binAssign storeS 3 p) p.rt)) ∧
    (reduceCore storeDeg 3 1).precursor.length ≤ 3 * 1 :=
  ⟨reduce_bin_partition storeS 3 1 (by decide) (by decide) (by decide),
    (reduce_bin_partition storeDeg 3 1 (by decide) (by decide) (by decide)).1⟩

/-- C2 counterexample: on a store whose candidates all share one RT value,
the reduction completes and keeps the precursor, but assigns it bin 1 of 3,
and its RT does not lie within bin 1's range in the equal-width partition of
the RT range claimed by the spec (the RT range is degenerate; `pd.cut` bins a
padded range instead). -/
theorem reduce_bin_partition_cex :
    reduceStoreE storeDeg 3 1 = Except.ok (reduceCore storeDeg 3 1) ∧
    (reduceCore storeDeg 3 1).precursor = [⟨1, false, 5⟩] ∧
    binAssign storeDeg 3 ⟨1, false, 5⟩ = 1 ∧
    ¬ inSpecBinRange (listMin (rtsOf storeDeg)) (listMax (rtsOf storeDeg)) 3
        (binAssign storeDeg 3 ⟨1, false, 5⟩) (5 : ℚ) := by
  refine ⟨?_, by decide, by decide, by decide⟩
  unfold reduceStoreE
  rw [if_neg (by decide), if_neg (by decide)]

theorem Store.ext' (a b : Store) (h1 : a.protein = b.protein)
    (h2 : a.peptide = b.peptide) (h3 : a.precursor = b.precursor)
    (h4 : a.transition = b.transition) (h5 : a.transPrecMapping = b.transPrecMapping)
    (h6 : a.precPepMapping = b.precPepMapping)
    (h7 : a.pepProtMapping = b.pepProtMapping) : a = b := by
  cases a
  cases b
  simp_all

theorem anchors_eq_self_of_counts (s : Store) (n k : Nat)
    (h : ∀ b, (anchorCandidates s).countP (fun a => binAssign s n a == b) ≤ k) :
    anchors s n k = anchorCandidates s := by
  apply headPerBinAux_eq_self
  intro b
  simpa using h b

/-- C3 counterexample: reducing `storeS` with 3 bins and 1 peptide per bin
keeps RTs 5, 10 and 30; re-reducing that output with the same parameters
recomputes the bin edges over the shrunken range [5, 30], which puts RTs 5
and 10 into the same bin, so the second reduction deletes the precursor at
RT 10: the result differs from its input. -/
theorem reduce_not_idempotent_cex :
    reduceStoreE storeS 3 1 = Except.ok (reduceCore storeS 3 1) ∧
    (reduceCore storeS 3 1).precursor =
      [⟨1, false, 5⟩, ⟨3, false, 10⟩, ⟨4, false, 30⟩] ∧
    reduceStoreE (reduceCore storeS 3 1) 3 1 =
      Except.ok (reduceCore (reduceCore storeS 3 1) 3 1) ∧
    (reduceCore (reduceCore storeS 3 1) 3 1).precursor =
      [⟨1, false, 5⟩, ⟨4, false, 30⟩] ∧
    reduceCore (reduceCore storeS 3 1) 3 1 ≠ reduceCore storeS 3 1 := by
  refine ⟨?_, by decide, ?_, by decide, by decide⟩
  · unfold reduceStoreE
    rw [if_neg (by decide), if_neg (by decide)]
  · unfold reduceStoreE
    rw [if_neg (by decide), if_neg (by decide)]

/-- C3 (amended): reduction is idempotent on its own output provided the
anchor set preserves the candidate RT minimum and maximum (the bin edges are
then unchanged), the reduced store retains at least one precursor, and
precursor IDs are unique; re-reducing then selects the same anchor set and
deletes nothing. -/
theorem reduce_idempotent_of_extremes_kept (s : Store) (n k : Nat) (s1 : Store)
    (h : reduceStoreE s n k = Except.ok s1)
    (hnd : (s.precursor.map (·.id)).Nodup)
    (hne1 : s1.precursor ≠ [])
    (hmn : listMin (rtsOf s1) = listMin (rtsOf s))
    (hmx : listMax (rtsOf s1) = listMax (rtsOf s)) :
    reduceStoreE s1 n k = Except.ok s1 := by
  obtain ⟨hn, hne, hs1⟩ := reduceStoreE_ok s n k s1 h
  subst hs1
  -- the kept precursor rows are exactly the anchors
  have hprec : (reduceCore s n k).precursor = anchors s n k := by
    rw [reduceCore_precursor]
    apply filter_eq_of_sublist _
      ((anchors_sublist s n k).trans (List.filter_sublist _))
      (List.Nodup.of_map _ hnd)
    · intro a ha
      exact decide_eq_true (List.mem_map_of_mem _ ha)
    · intro p hp hpx
      exact mem_anchors_of_id_mem s n k hnd p hp (of_decide_eq_true hpx)
  -- all kept rows are non-decoy, so they are all candidates again
  have hcand : anchorCandidates (reduceCore s n k) = (reduceCore s n k).precursor := by
    unfold anchorCandidates
    rw [List.filter_eq_self]
    intro p hp
    rw [hprec] at hp
    simp [anchors_not_decoy s n k p hp]
  -- the bin edges are unchanged
  have hba : binAssign (reduceCore s n k) n = binAssign s n := by
    funext p
    unfold binAssign
    rw [hmn, hmx]
  -- every bin already holds at most k candidates
  have hcounts : ∀ b, (anchorCandidates (reduceCore s n k)).countP
      (fun a => binAssign (reduceCore s n k) n a == b) ≤ k := by
    intro b
    rw [hcand, hprec, hba]
    exact anchors_countP_le s n k b
  have hanch1 : anchors (reduceCore s n k) n k = anchorCandidates (reduceCore s n k) :=
    anchors_eq_self_of_counts (reduceCore s n k) n k hcounts
  have hids : anchorIds (reduceCore s n k) n k = anchorIds s n k := by
    unfold anchorIds
    rw [hanch1, hcand, hprec]
  -- the second cascade deletes nothing, table by table
  have htpm2 : (reduceCore (reduceCore s n k) n k).transPrecMapping =
      (reduceCore s n k).transPrecMapping := by
    rw [reduceCore_transPrecMapping, hids, List.filter_eq_self]
    intro m hm
    rw [reduceCore_transPrecMapping] at hm
    exact (List.mem_filter.mp hm).2
  have hppm2 : (reduceCore (reduceCore s n k) n k).precPepMapping =
      (reduceCore s n k).precPepMapping := by
    rw [reduceCore_precPepMapping, hids, List.filter_eq_self]
    intro m hm
    rw [reduceCore_precPepMapping] at hm
    exact (List.mem_filter.mp hm).2
  have hprec2 : (reduceCore (reduceCore s n k) n k).precursor =
      (reduceCore s n k).precursor := by
    rw [reduceCore_precursor, hids, List.filter_eq_self]
    intro p hp
    rw [hprec] at hp
    exact decide_eq_true (List.mem_map_of_mem _ hp)
  have htrans2 : (reduceCore (reduceCore s n k) n k).transition =
      (reduceCore s n k).transition := by
    rw [reduceCore_transition, htpm2, List.filter_eq_self]
    intro t ht
    rw [reduceCore_transition] at ht
    exact (List.mem_filter.mp ht).2
  have hpep2 : (reduceCore (reduceCore s n k) n k).peptide =
      (reduceCore s n k).peptide := by
    rw [reduceCore_peptide, hppm2, List.filter_eq_self]
    intro q hq
    rw [reduceCore_peptide] at hq
    exact (List.mem_filter.mp hq).2
  have hpp2 : (reduceCore (reduceCore s n k) n k).pepProtMapping =
      (reduceCore s n k).pepProtMapping := by
    rw [reduceCore_pepProtMapping, hppm2, List.filter_eq_self]
    intro m hm
    rw [reduceCore_pepProtMapping] at hm
    exact (List.mem_filter.mp hm).2
  have hprot2 : (reduceCore (reduceCore s n k) n k).protein =
      (reduceCore s n k).protein := by
    rw [reduceCore_protein, hpp2, List.filter_eq_self]
    intro r hr
    rw [reduceCore_protein] at hr
    exact (List.mem_filter.mp hr).2
  have hcore : reduceCore (reduceCore s n k) n k = reduceCore s n k :=
    Store.ext' _ _ hprot2 hpep2 hprec2 htrans2 htpm2 hppm2 hpp2
  unfold reduceStoreE
  rw [if_neg hn, if_neg (by rw [hcand]; exact hne1), hcore]

/-- C3 witness: on a store whose two precursors sit at the gradient ends,
reduction keeps both, and re-reduction is the identity. -/
theorem reduce_idempotent_witness :
    reduceStoreE (reduceCore storeW 3 1) 3 1 = Except.ok (reduceCore storeW 3 1) :=
  reduce_idempotent_of_extremes_kept storeW 3 1 (reduceCore storeW 3 1)
    (by unfold reduceStoreE; rw [if_neg (by decide), if_neg (by decide)])
    (by decide) (by decide) (by decide) (by decide)

/-- A concrete file system holding `storeW` at path `a`. -/
def fsW : FileSys := fun p => if p = "a" then some storeW else none

/-- C4 counterexample: in a successful concrete run, the commit step occurs
strictly before the storage reclamation: `con.commit()` is issued first and
`VACUUM` only afterwards, so the commit does not wait for the storage-reclaim
step to succeed. -/
theorem commit_precedes_vacuum_cex :
    (reduceRun fsW "a" "b" 3 1).2.1 = none ∧
    Step.commitStep ∈ (reduceRun fsW "a" "b" 3 1).1 ∧
    Step.vacuumStep ∈ (reduceRun fsW "a" "b" 3 1).1 ∧
    (reduceRun fsW "a" "b" 3 1).1.indexOf Step.commitStep <
      (reduceRun fsW "a" "b" 3 1).1.indexOf Step.vacuumStep :=
  ⟨by decide, by decide, by decide, by decide⟩

/-- C4 (amended): in every successful `reduce` invocation, all cascade delete
steps precede the commit, and the commit precedes the storage reclamation
(`VACUUM`), which runs outside the transaction after the commit. -/
theorem commit_after_deletes_before_vacuum (fs : FileSys) (inf outf : String)
    (n k : Nat) (h : (reduceRun fs inf outf n k).2.1 = none) :
    (reduceRun fs inf outf n k).1 = fullTrace ∧
    (∀ d ∈ deleteSteps, fullTrace.indexOf d < fullTrace.indexOf Step.commitStep) ∧
    fullTrace.indexOf Step.commitStep < fullTrace.indexOf Step.vacuumStep := by
  refine ⟨?_, by decide, by decide⟩
  unfold reduceRun at h ⊢
  cases hfi : fs inf with
  | none =>
    simp only [hfi] at h
    exact Option.noConfusion h
  | some s =>
    simp only [hfi] at h ⊢
    by_cases hio : inf = outf
    · simp only [if_pos hio] at h
      exact Option.noConfusion h
    · simp only [if_neg hio] at h ⊢
      by_cases hn : n = 0
      · simp only [if_pos hn] at h
        exact Option.noConfusion h
      · simp only [if_neg hn] at h ⊢
        by_cases hne : anchorCandidates s = []
        · simp only [if_pos hne] at h
          exact Option.noConfusion h
        · simp only [if_neg hne]

/-- C4 witness: the amended ordering theorem applied to a concrete run. -/
theorem commit_after_deletes_before_vacuum_witness :
    (reduceRun fsW "a" "b" 3 1).1 = fullTrace ∧
    (∀ d ∈ deleteSteps, fullTrace.indexOf d < fullTrace.indexOf Step.commitStep) ∧
    fullTrace.indexOf Step.commitStep < fullTrace.indexOf Step.vacuumStep :=
  commit_after_deletes_before_vacuum fsW "a" "b" 3 1 (by decide)

/-- C5 counterexample: with zero bins requested, `reduce` does raise an
error, but only after I/O has occurred: the executed action sequence already
contains the copy of the input file and the opening and reading of the
store. -/
theorem zero_bins_io_cex :
    (reduceRun fsW "a" "b" 0 1).2.1 = some "bins should be a positive integer" ∧
    Step.copy ∈ (reduceRun fsW "a" "b" 0 1).1 ∧
    Step.openConn ∈ (reduceRun fsW "a" "b" 0 1).1 ∧
    Step.readCandidates ∈ (reduceRun fsW "a" "b" 0 1).1 :=
  ⟨by decide, by decide, by decide, by decide⟩

/-- C5 (amended): requesting zero bins makes `reduce` fail with a
`ValueError` from `pd.cut`, but only at the binning step — after the input
file has been copied, the store opened and the candidate table read. -/
theorem zero_bins_error_after_io (fs : FileSys) (inf outf : String) (k : Nat)
    (s : Store) (hfi : fs inf = some s) (hio : inf ≠ outf) :
    (reduceRun fs inf outf 0 k).2.1 = some "bins should be a positive integer" ∧
    (reduceRun fs inf outf 0 k).1 =
      [Step.copy, Step.openConn, Step.readCandidates] := by
  unfold reduceRun
  simp [hfi, hio]

/-- C5 witness: the amended theorem applied to a concrete run. -/
theorem zero_bins_error_after_io_witness :
    (reduceRun fsW "a" "b" 0 1).2.1 = some "bins should be a positive integer" ∧
    (reduceRun fsW "a" "b" 0 1).1 =
      [Step.copy, Step.openConn, Step.readCandidates] :=
  zero_bins_error_after_io fsW "a" "b" 1 storeW (by decide) (by decide)

/-- C10: `reduce` never modifies the input file: the resulting file system
maps the input path to its original content in every case; and when the
output path equals the input path, `copyfile` raises `SameFileError` before
the store is ever opened, leaving the file system entirely unchanged. -/
theorem reduceRun_eq_samefile (fs : FileSys) (inf : String) (n k : Nat)
    (s : Store) (hfi : fs inf = some s) :
    reduceRun fs inf inf n k = ([], some "SameFileError", fs) := by
  unfold reduceRun
  simp [hfi]

theorem reduceRun_eq_zero_bins (fs : FileSys) (inf outf : String) (k : Nat)
    (s : Store) (hfi : fs inf = some s) (hio : inf ≠ outf) :
    reduceRun fs inf outf 0 k =
      ([Step.copy, Step.openConn, Step.readCandidates],
        some "bins should be a positive integer",
        fun p => if p = outf then some s else fs p) := by
  unfold reduceRun
  simp [hfi, hio]

theorem reduceRun_eq_empty_cands (fs : FileSys) (inf outf : String) (n k : Nat)
    (s : Store) (hfi : fs inf = some s) (hio : inf ≠ outf) (hn : n ≠ 0)
    (hne : anchorCandidates s = []) :
    reduceRun fs inf outf n k =
      ([Step.copy, Step.openConn, Step.readCandidates],
        some "Cannot cut empty array",
        fun p => if p = outf then some s else fs p) := by
  unfold reduceRun
  simp [hfi, hio, hn, hne]

theorem reduceRun_eq_success (fs : FileSys) (inf outf : String) (n k : Nat)
    (s : Store) (hfi : fs inf = some s) (hio : inf ≠ outf) (hn : n ≠ 0)
    (hne : anchorCandidates s ≠ []) :
    reduceRun fs inf outf n k =
      (fullTrace, none,
        fun p => if p = outf then some (reduceCore s n k) else fs p) := by
  unfold reduceRun
  simp [hfi, hio, hn, hne]

theorem reduce_input_untouched (fs : FileSys) (inf outf : String) (n k : Nat)
    (s : Store) (hfi : fs inf = some s) :
    (reduceRun fs inf outf n k).2.2 inf = fs inf ∧
    (inf = outf →
      (reduceRun fs inf outf n k).2.1 = some "SameFileError" ∧
      Step.openConn ∉ (reduceRun fs inf outf n k).1 ∧
      (reduceRun fs inf outf n k).2.2 = fs) := by
  by_cases hio : inf = outf
  · subst hio
    rw [reduceRun_eq_samefile fs inf n k s hfi]
    exact ⟨rfl, fun _ => ⟨rfl, by simp, rfl⟩⟩
  · refine ⟨?_, fun hcontra => absurd hcontra hio⟩
    by_cases hn : n = 0
    · subst hn
      rw [reduceRun_eq_zero_bins fs inf outf k s hfi hio]
      simp [hio]
    · by_cases hne : anchorCandidates s = []
      · rw [reduceRun_eq_empty_cands fs inf outf n k s hfi hio hn hne]
        simp [hio]
      · rw [reduceRun_eq_success fs inf outf n k s hfi hio hn hne]
        simp [hio]

/-- C10 witness: the frame theorem applied at a concrete file system, with
input and output paths equal. -/
theorem reduce_input_untouched_witness :
    (reduceRun fsW "a" "a" 3 1).2.2 "a" = fsW "a" ∧
    ("a" = "a" →
      (reduceRun fsW "a" "a" 3 1).2.1 = some "SameFileError" ∧
      Step.openConn ∉ (reduceRun fsW "a" "a" 3 1).1 ∧
      (reduceRun fsW "a" "a" 3 1).2.2 = fsW) :=
  reduce_input_untouched fsW "a" "a" 3 1 storeW (by decide)

/-- C6 counterexample: when the pyprophet import fails, processing the
`--pi0_lambda` option raises no capability-missing error: the concrete value
is passed through unchanged with the transformation disabled, regardless of
what the real transform would have done. -/
theorem pi0_fallback_silent_cex :
    processPi0Option false (fun _ => Except.error "pi0 capability missing")
      ((1 : ℚ)/10, (1 : ℚ)/2, (1 : ℚ)/20) =
      Except.ok ((1 : ℚ)/10, (1 : ℚ)/2, (1 : ℚ)/20) := rfl

/-- C6 (amended): when the pyprophet import fails, `transform_pi0_lambda` is
`None`, click skips the `None` callback, and the `library` command proceeds
with the raw pi0-lambda value untransformed — silent degradation rather than
a fail-fast capability-missing error. -/
theorem pi0_fallback_silent (t : Pi0Lambda → Except String Pi0Lambda)
    (v : Pi0Lambda) : processPi0Option false t v = Except.ok v := rfl

end EasyPQP
